import Mathlib

/-!
Verification of the series-reconciliation pipeline of the business-cycle
tracker (src/update_data.py).

The development shallowly embeds the data model and the two algorithmic
functions the specification describes:

* `clean_data_file` (update_data.py, lines 352-415): single-pass
  duplicate-date removal (first kept occurrence wins) plus, for series with
  a declared value range, outlier rejection of values strictly outside
  `[min, max]`.  The pass keeps the input order; it does not sort.
* `calculate_yoy_returns` (update_data.py, lines 499-539): sorts the input
  by date and, for each index `i`, scans the strictly earlier entries for
  the one whose date is nearest to `date(i)` minus one calendar year,
  accepting it when the distance is at most 45 days and the anchor value is
  strictly positive, emitting `round(((v_i / v_past) - 1) * 100, 2)`.

Dates are `(year, month, day)` triples; the Python code compares the
zero-padded strings `"%Y-%m-%d"`, whose order coincides with the
lexicographic order on the triples.  Values are embedded as rationals, and
Python `round(x, 2)` as round-half-to-even on rationals.  Python's
`datetime` subtraction is embedded through the proleptic Gregorian ordinal
(`datetime.date.toordinal`), and `relativedelta(years=1)` subtraction as
"same month, previous year, day clamped to the length of that month".
-/

namespace UpdateData

/-- A calendar date at day precision, as parsed from `"%Y-%m-%d"`. -/
structure Date where
  year : Nat
  month : Nat
  day : Nat
deriving DecidableEq, Repr

/-- One `{date, value}` record of a series JSON file. -/
structure Obs where
  date : Date
  value : ℚ
deriving DecidableEq, Repr

/-- Order on dates: the order of the zero-padded strings `"%Y-%m-%d"`,
which is the lexicographic order on `(year, month, day)`. -/
def Date.le (a b : Date) : Prop :=
  a.year < b.year ∨ (a.year = b.year ∧
    (a.month < b.month ∨ (a.month = b.month ∧ a.day ≤ b.day)))

/-- Strict order on dates (lexicographic on `(year, month, day)`). -/
def Date.lt (a b : Date) : Prop :=
  a.year < b.year ∨ (a.year = b.year ∧
    (a.month < b.month ∨ (a.month = b.month ∧ a.day < b.day)))

instance : DecidableRel Date.le := fun a b => by
  unfold Date.le
  infer_instance

instance : DecidableRel Date.lt := fun a b => by
  unfold Date.lt
  infer_instance

/-- The comparison `key=lambda x: x["date"]` used by the Python sorts. -/
def obsLe (a b : Obs) : Prop := Date.le a.date b.date

/-- Strict version of `obsLe`. -/
def obsLt (a b : Obs) : Prop := Date.lt a.date b.date

instance : DecidableRel obsLe := fun a b => by
  unfold obsLe
  infer_instance

instance : DecidableRel obsLt := fun a b => by
  unfold obsLt
  infer_instance

instance : IsTotal Obs obsLe := by
  constructor
  intro a b
  unfold obsLe Date.le
  omega

instance : IsTrans Obs obsLe := by
  constructor
  intro a b c
  unfold obsLe Date.le
  omega

instance : IsTrans Obs obsLt := by
  constructor
  intro a b c
  unfold obsLt Date.lt
  omega

instance : IsAntisymm Obs obsLt := by
  constructor
  intro a b h1 h2
  exfalso
  unfold obsLt Date.lt at h1 h2
  omega

/-- A stable sort by date: the model of Python's stable
`sorted(data, key=lambda x: x["date"])` / `data.sort(key=lambda x: x["date"])`. -/
def sortByDate (l : List Obs) : List Obs := List.insertionSort obsLe l

/-- The `value_ranges` table of `clean_data_file` (update_data.py lines
359-367) together with the `.get(filename, (None, None))` lookup. -/
def value_ranges (filename : String) : Option (ℚ × ℚ) :=
  if filename = "ism_manufacturing.json" then some (0, 100)
  else if filename = "ism_services.json" then some (0, 100)
  else if filename = "global_m2.json" then some (1000, 30000)
  else if filename = "bitcoin_price.json" then some (0, 150000)
  else if filename = "nasdaq.json" then some (0, 25000)
  else if filename = "unemployment_rate.json" then some (0, 20)
  else if filename = "yield_curve.json" then some (-5, 5)
  else none

/-- The range test of update_data.py line 401: an item is kept when NOT
`value < min_val or value > max_val`. -/
def inRange (mn mx : ℚ) (o : Obs) : Bool := !(o.value < mn || mx < o.value)

/-- The single cleaning pass of `clean_data_file`: walk the list keeping a
set (here: list) of dates already kept; drop an item whose date was already
kept; otherwise drop it when `keep` rejects it (the range test; constantly
`true` in the duplicates-only branch) without marking its date as seen;
otherwise keep it and mark its date. -/
def cleanLoop (keep : Obs → Bool) (seen : List Date) : List Obs → List Obs
  | [] => []
  | item :: rest =>
    if item.date ∈ seen then cleanLoop keep seen rest
    else if keep item then item :: cleanLoop keep (item.date :: seen) rest
    else cleanLoop keep seen rest

/-- `clean_data_file(data, filename)` (update_data.py lines 352-415): with
no declared range the pass only removes duplicate dates; with a declared
range it removes duplicates and values strictly outside the range. -/
def clean_data_file (data : List Obs) (filename : String) : List Obs :=
  match value_ranges filename with
  | none => cleanLoop (fun _ => true) [] data
  | some (mn, mx) => cleanLoop (inRange mn mx) [] data

/-- The keep-test `clean_data_file` applies for a given filename. -/
def keepFor (filename : String) (o : Obs) : Bool :=
  match value_ranges filename with
  | none => true
  | some (mn, mx) => inRange mn mx o

/-- Membership in the declared range of a filename, `True` when the
filename declares no range. -/
def inDeclaredRange (filename : String) (o : Obs) : Prop :=
  match value_ranges filename with
  | none => True
  | some (mn, mx) => mn ≤ o.value ∧ o.value ≤ mx

instance (f : String) : DecidablePred (inDeclaredRange f) := fun o =>
  match h : value_ranges f with
  | none => isTrue (by simp [inDeclaredRange, h])
  | some (mn, mx) =>
      decidable_of_iff (mn ≤ o.value ∧ o.value ≤ mx) (by simp [inDeclaredRange, h])

/-- Gregorian leap-year test, as in Python's `calendar`/`datetime`. -/
def isLeap (year : Nat) : Bool :=
  year % 4 == 0 && (year % 100 != 0 || year % 400 == 0)

/-- Number of days of a month in a given year. -/
def daysInMonth (year month : Nat) : Nat :=
  if month = 2 then (if isLeap year then 29 else 28)
  else if month = 4 ∨ month = 6 ∨ month = 9 ∨ month = 11 then 30
  else 31

/-- Days in the given year before the first of the given month. -/
def daysBeforeMonth (year month : Nat) : Nat :=
  ((List.range (month - 1)).map (fun k => daysInMonth year (k + 1))).sum

/-- The proleptic Gregorian ordinal of a date, as computed by Python's
`datetime.date.toordinal` (0001-01-01 has ordinal 1); subtraction of two
`datetime` values parsed from `"%Y-%m-%d"` yields a timedelta of exactly
the difference of these ordinals in days. -/
def Date.toOrdinal (dt : Date) : ℤ :=
  let p : Nat := dt.year - 1
  365 * (p : ℤ) + ((p / 4 : Nat) : ℤ) - ((p / 100 : Nat) : ℤ) + ((p / 400 : Nat) : ℤ)
    + (daysBeforeMonth dt.year dt.month : ℤ) + (dt.day : ℤ)

/-- `current_date - relativedelta(years=1)`: same month, previous year,
day clamped to the length of that month (Feb 29 becomes Feb 28). -/
def minusOneYear (dt : Date) : Date :=
  { year := dt.year - 1, month := dt.month,
    day := min dt.day (daysInMonth (dt.year - 1) dt.month) }

/-- `abs(past_date - target_date)` in days, for a target ordinal `t`. -/
def dayDist (t : ℤ) (o : Obs) : Nat := (Date.toOrdinal o.date - t).natAbs

/-- The inner loop of `calculate_yoy_returns` (update_data.py lines
513-522): scan the candidates in order, tracking `(closest_idx, min_diff)`
starting from `(None, 365 days)` and updating on strictly smaller
distances. -/
def closestAux (t : ℤ) : List Obs → Nat → Option Nat × Nat → Option Nat × Nat
  | [], _, st => st
  | past :: rest, j, st =>
    if dayDist t past < st.2 then closestAux t rest (j + 1) (some j, dayDist t past)
    else closestAux t rest (j + 1) st

/-- Run the nearest-anchor scan over a candidate list. -/
def closestScan (t : ℤ) (l : List Obs) : Option Nat × Nat :=
  closestAux t l 0 (none, 365)

/-- Round half to even to an integer, the rounding Python's `round` uses. -/
def roundHalfEven (x : ℚ) : ℤ :=
  if x - Rat.floor x < 1 / 2 then Rat.floor x
  else if 1 / 2 < x - Rat.floor x then Rat.floor x + 1
  else if Rat.floor x % 2 = 0 then Rat.floor x else Rat.floor x + 1

/-- Python's `round(x, 2)`. -/
def round2 (x : ℚ) : ℚ := ((roundHalfEven (x * 100) : ℤ) : ℚ) / 100

/-- The body of the outer loop of `calculate_yoy_returns` for index `i` of
the sorted list `s`: find the nearest strictly-earlier anchor to the date
one calendar year before `s[i]`; if one was found within 45 days and its
value is strictly positive, emit the rounded YoY percentage return at the
current date, otherwise emit nothing. -/
def yoyAt (s : List Obs) (i : Nat) : Option Obs :=
  match s[i]? with
  | none => none
  | some cur =>
    match closestScan (Date.toOrdinal (minusOneYear cur.date)) (s.take i) with
    | (none, _) => none
    | (some j, md) =>
      if md ≤ 45 then
        match s[j]? with
        | none => none
        | some past =>
          if 0 < past.value then
            some ⟨cur.date, round2 ((cur.value / past.value - 1) * 100)⟩
          else none
      else none

/-- `calculate_yoy_returns(price_data)` (update_data.py lines 499-539):
sort by date, then emit the YoY record of each index that accepts an
anchor, in index order. -/
def calculate_yoy_returns (price_data : List Obs) : List Obs :=
  let sorted_data := sortByDate price_data
  (List.range sorted_data.length).filterMap (yoyAt sorted_data)

theorem Date.le_iff_lt_or_eq (a b : Date) : Date.le a b ↔ Date.lt a b ∨ a = b := by
  cases a with
  | mk ya ma da =>
    cases b with
    | mk yb mb db =>
      simp only [Date.le, Date.lt, Date.mk.injEq]
      omega

theorem Date.lt_irrefl (a : Date) : ¬ Date.lt a a := by
  cases a
  simp only [Date.lt]
  omega

theorem Date.le_of_lt {a b : Date} (h : Date.lt a b) : Date.le a b :=
  (Date.le_iff_lt_or_eq a b).mpr (Or.inl h)

theorem Date.le_refl (a : Date) : Date.le a a :=
  (Date.le_iff_lt_or_eq a a).mpr (Or.inr rfl)

/-- `clean_data_file` is `cleanLoop` with the filename's keep-test. -/
theorem clean_data_file_eq (data : List Obs) (filename : String) :
    clean_data_file data filename = cleanLoop (keepFor filename) [] data := by
  unfold clean_data_file keepFor
  cases h : value_ranges filename with
  | none => rfl
  | some p =>
    cases p
    rfl

/-- The cleaning pass only ever drops items: its output is a sublist of its
input (same elements, unchanged, in the same relative order). -/
theorem cleanLoop_sublist (keep : Obs → Bool) (seen : List Date) (l : List Obs) :
    List.Sublist (cleanLoop keep seen l) l := by
  induction l generalizing seen with
  | nil => simp [cleanLoop]
  | cons item rest ih =>
    by_cases h1 : item.date ∈ seen
    · simp only [cleanLoop, if_pos h1]
      exact (ih seen).trans (List.sublist_cons_self item rest)
    · by_cases h2 : keep item
      · simp only [cleanLoop, if_neg h1, if_pos h2]
        exact List.Sublist.cons₂ item (ih (item.date :: seen))
      · simp only [cleanLoop, if_neg h1, if_neg h2]
        exact (ih seen).trans (List.sublist_cons_self item rest)

/-- Every item kept by the cleaning pass passes the keep-test. -/
theorem cleanLoop_keep (keep : Obs → Bool) (seen : List Date) (l : List Obs)
    (o : Obs) (ho : o ∈ cleanLoop keep seen l) : keep o = true := by
  induction l generalizing seen with
  | nil => simp [cleanLoop] at ho
  | cons item rest ih =>
    by_cases h1 : item.date ∈ seen
    · rw [cleanLoop, if_pos h1] at ho
      exact ih seen ho
    · by_cases h2 : keep item
      · rw [cleanLoop, if_neg h1, if_pos h2] at ho
        rcases List.mem_cons.mp ho with h | h
        · rw [h]; exact h2
        · exact ih (item.date :: seen) h
      · rw [cleanLoop, if_neg h1, if_neg h2] at ho
        exact ih seen ho

/-- No date already marked as seen appears in the output of the pass. -/
theorem cleanLoop_seen_not_mem (keep : Obs → Bool) (seen : List Date) (l : List Obs)
    (d : Date) (hd : d ∈ seen) : d ∉ (cleanLoop keep seen l).map (fun o => o.date) := by
  induction l generalizing seen with
  | nil => simp [cleanLoop]
  | cons item rest ih =>
    by_cases h1 : item.date ∈ seen
    · rw [cleanLoop, if_pos h1]
      exact ih seen hd
    · by_cases h2 : keep item
      · rw [cleanLoop, if_neg h1, if_pos h2]
        intro hmem
        rcases List.mem_map.mp hmem with ⟨o, ho, hod⟩
        rcases List.mem_cons.mp ho with h | h
        · subst hod
          subst h
          exact h1 hd
        · exact ih (item.date :: seen) (List.mem_cons_of_mem _ hd)
            (List.mem_map.mpr ⟨o, h, hod⟩)
      · rw [cleanLoop, if_neg h1, if_neg h2]
        exact ih seen hd

/-- The dates of the output of the cleaning pass are pairwise distinct:
each date is kept at most once. -/
theorem cleanLoop_nodup (keep : Obs → Bool) (seen : List Date) (l : List Obs) :
    ((cleanLoop keep seen l).map (fun o => o.date)).Nodup := by
  induction l generalizing seen with
  | nil => simp [cleanLoop]
  | cons item rest ih =>
    by_cases h1 : item.date ∈ seen
    · rw [cleanLoop, if_pos h1]
      exact ih seen
    · by_cases h2 : keep item
      · rw [cleanLoop, if_neg h1, if_pos h2]
        refine List.nodup_cons.mpr ⟨?_, ih (item.date :: seen)⟩
        exact cleanLoop_seen_not_mem keep (item.date :: seen) rest item.date
          (List.mem_cons_self _ _)
      · rw [cleanLoop, if_neg h1, if_neg h2]
        exact ih seen

/-- Each kept item is the first input item that has its date and passes the
keep-test (first surviving occurrence wins). -/
theorem cleanLoop_first_wins (keep : Obs → Bool) (seen : List Date) (l : List Obs)
    (o : Obs) (ho : o ∈ cleanLoop keep seen l) :
    o.date ∉ seen ∧
      l.find? (fun x => decide (x.date = o.date) && keep x) = some o := by
  induction l generalizing seen with
  | nil => simp [cleanLoop] at ho
  | cons item rest ih =>
    by_cases h1 : item.date ∈ seen
    · rw [cleanLoop, if_pos h1] at ho
      obtain ⟨hno, hfind⟩ := ih seen ho
      have hne : item.date ≠ o.date := by
        intro he
        exact hno (he ▸ h1)
      refine ⟨hno, ?_⟩
      rw [List.find?_cons]
      have : (decide (item.date = o.date) && keep item) = false := by
        simp [hne]
      rw [this]
      exact hfind
    · by_cases h2 : keep item
      · rw [cleanLoop, if_neg h1, if_pos h2] at ho
        rcases List.mem_cons.mp ho with h | h
        · subst h
          refine ⟨h1, ?_⟩
          rw [List.find?_cons]
          have : (decide (o.date = o.date) && keep o) = true := by
            simp [h2]
          rw [this]
        · obtain ⟨hno, hfind⟩ := ih (item.date :: seen) h
          have hnseen : o.date ∉ seen := fun hc => hno (List.mem_cons_of_mem _ hc)
          have hne : item.date ≠ o.date := by
            intro he
            exact hno (he ▸ List.mem_cons_self _ _)
          refine ⟨hnseen, ?_⟩
          rw [List.find?_cons]
          have : (decide (item.date = o.date) && keep item) = false := by
            simp [hne]
          rw [this]
          exact hfind
      · rw [cleanLoop, if_neg h1, if_neg h2] at ho
        obtain ⟨hno, hfind⟩ := ih seen ho
        refine ⟨hno, ?_⟩
        rw [List.find?_cons]
        have : (decide (item.date = o.date) && keep item) = false := by
          by_cases he : item.date = o.date
          · simp [h2]
          · simp [he]
        rw [this]
        exact hfind

/-- On an input whose dates are pairwise distinct and unseen, the cleaning
pass is exactly a filter by the keep-test. -/
theorem cleanLoop_eq_filter (keep : Obs → Bool) (seen : List Date) (l : List Obs)
    (hnd : (l.map (fun o => o.date)).Nodup)
    (hseen : ∀ o ∈ l, o.date ∉ seen) :
    cleanLoop keep seen l = l.filter keep := by
  induction l generalizing seen with
  | nil => simp [cleanLoop]
  | cons item rest ih =>
    have h1 : item.date ∉ seen := hseen item (List.mem_cons_self _ _)
    rw [List.map_cons, List.nodup_cons] at hnd
    have hmap := hnd
    by_cases h2 : keep item
    · rw [cleanLoop, if_neg h1, if_pos h2, List.filter_cons_of_pos h2]
      congr 1
      refine ih (item.date :: seen) hmap.2 ?_
      intro o homem
      intro hc
      rcases List.mem_cons.mp hc with h | h
      · exact hmap.1 (List.mem_map.mpr ⟨o, homem, h⟩)
      · exact hseen o (List.mem_cons_of_mem _ homem) h
    · rw [cleanLoop, if_neg h1, if_neg h2, List.filter_cons_of_neg (by simpa using h2)]
      refine ih seen hmap.2 ?_
      intro o homem
      exact hseen o (List.mem_cons_of_mem _ homem)

/-- On an input whose dates are pairwise distinct and unseen and all of
whose items pass the keep-test, the cleaning pass changes nothing. -/
theorem cleanLoop_id (keep : Obs → Bool) (seen : List Date) (l : List Obs)
    (hnd : (l.map (fun o => o.date)).Nodup)
    (hseen : ∀ o ∈ l, o.date ∉ seen)
    (hkeep : ∀ o ∈ l, keep o = true) :
    cleanLoop keep seen l = l := by
  rw [cleanLoop_eq_filter keep seen l hnd hseen]
  exact List.filter_eq_self.mpr hkeep

/-- In the duplicates-only branch, every input date survives into the
output: nothing but duplicates is dropped. -/
theorem cleanLoop_true_date_mem (seen : List Date) (l : List Obs) (d : Date)
    (hdl : d ∈ l.map (fun o => o.date)) (hds : d ∉ seen) :
    d ∈ (cleanLoop (fun _ => true) seen l).map (fun o => o.date) := by
  induction l generalizing seen with
  | nil => simp at hdl
  | cons item rest ih =>
    by_cases h1 : item.date ∈ seen
    · rw [cleanLoop, if_pos h1]
      have hne : d ≠ item.date := fun he => hds (he ▸ h1)
      rcases List.mem_map.mp hdl with ⟨o, ho, hod⟩
      rcases List.mem_cons.mp ho with h | h
      · exact absurd (by rw [← hod, h]) hne
      · exact ih seen (List.mem_map.mpr ⟨o, h, hod⟩) hds
    · rw [cleanLoop, if_neg h1, if_pos rfl]
      by_cases he : d = item.date
      · simp [he]
      · rcases List.mem_map.mp hdl with ⟨o, ho, hod⟩
        rcases List.mem_cons.mp ho with h | h
        · exact absurd (by rw [← hod, h]) he
        · have : d ∉ item.date :: seen := by
            intro hc
            rcases List.mem_cons.mp hc with h' | h'
            · exact he h'
            · exact hds h'
          have := ih (item.date :: seen) (List.mem_map.mpr ⟨o, h, hod⟩) this
          simpa using Or.inr (List.mem_map.mp this)

/-- Sorting by date permutes the list (nothing is added or dropped). -/
theorem sortByDate_perm (l : List Obs) : List.Perm (sortByDate l) l :=
  List.perm_insertionSort obsLe l

/-- Sorting by date yields a list that is weakly ascending by date. -/
theorem sortByDate_sorted (l : List Obs) : (sortByDate l).Pairwise obsLe :=
  List.sorted_insertionSort obsLe l

/-- A weakly date-ascending list with pairwise-distinct dates is strictly
date-ascending. -/
theorem pairwise_lt_of_le_nodup (l : List Obs) (hle : l.Pairwise obsLe)
    (hnd : (l.map (fun o => o.date)).Nodup) : l.Pairwise obsLt := by
  have hne : l.Pairwise (fun a b => a.date ≠ b.date) := List.pairwise_map.mp hnd
  refine (hle.and hne).imp ?_
  intro a b hab
  rcases (Date.le_iff_lt_or_eq a.date b.date).mp hab.1 with h | h
  · exact h
  · exact absurd h hab.2

/-- Two weakly date-ascending lists that are permutations of each other and
have pairwise-distinct dates are equal. -/
theorem eq_of_perm_sorted (l₁ l₂ : List Obs) (hp : List.Perm l₁ l₂)
    (h1 : l₁.Pairwise obsLe) (h2 : l₂.Pairwise obsLe)
    (hnd : (l₁.map (fun o => o.date)).Nodup) : l₁ = l₂ := by
  have hnd2 : (l₂.map (fun o => o.date)).Nodup :=
    ((hp.map (fun o => o.date)).nodup_iff).mp hnd
  exact List.eq_of_perm_of_sorted (r := obsLt) hp
    (pairwise_lt_of_le_nodup l₁ h1 hnd) (pairwise_lt_of_le_nodup l₂ h2 hnd2)

/-- On inputs with pairwise-distinct dates, sorting by date is invariant
under permutation of the input. -/
theorem sortByDate_perm_invariant (l l' : List Obs) (hp : List.Perm l l')
    (hnd : (l.map (fun o => o.date)).Nodup) : sortByDate l = sortByDate l' := by
  have hperm : List.Perm (sortByDate l) (sortByDate l') :=
    ((sortByDate_perm l).trans hp).trans (sortByDate_perm l').symm
  have hnd1 : ((sortByDate l).map (fun o => o.date)).Nodup :=
    (((sortByDate_perm l).map (fun o => o.date)).nodup_iff).mpr hnd
  exact eq_of_perm_sorted _ _ hperm (sortByDate_sorted l) (sortByDate_sorted l') hnd1

/-- The keep-test for values in the declared range accepts exactly the
values inside the closed interval (boundary values are kept; only values
strictly outside are rejected). -/
theorem inRange_iff (mn mx : ℚ) (o : Obs) :
    inRange mn mx o = true ↔ mn ≤ o.value ∧ o.value ≤ mx := by
  simp [inRange, not_lt]

/-- C9: the output of `clean_data_file` is a sublist of its input — every
kept Observation appears unchanged, in the input's relative order; cleaning
never reorders, modifies, or fabricates Observations. -/
theorem clean_output_sublist_of_input :
    ∀ (l : List Obs) (f : String), List.Sublist (clean_data_file l f) l := by
  intro l f
  rw [clean_data_file_eq]
  exact cleanLoop_sublist _ _ _

/-- C3: `clean_data_file` is idempotent — cleaning an already cleaned list
changes nothing, since the output has pairwise-distinct dates and only
values that pass the keep-test. -/
theorem clean_idempotent :
    ∀ (l : List Obs) (f : String),
      clean_data_file (clean_data_file l f) f = clean_data_file l f := by
  intro l f
  rw [clean_data_file_eq (clean_data_file l f) f, clean_data_file_eq l f]
  apply cleanLoop_id
  · exact cleanLoop_nodup _ _ _
  · simp
  · intro o ho
    exact cleanLoop_keep _ _ _ o ho

/-- C7: for a filename with a declared range and a duplicate-free input,
`clean_data_file` is exactly the filter keeping values inside the closed
range `[min, max]` (boundaries kept, only strictly-outside values dropped);
for a filename without a declared range it performs no range filtering —
every input date survives — while still removing duplicate dates. -/
theorem clean_range_filtering :
    (∀ (l : List Obs) (f : String) (mn mx : ℚ), value_ranges f = some (mn, mx) →
       (l.map (fun o => o.date)).Nodup →
       clean_data_file l f = l.filter (inRange mn mx)) ∧
    (∀ (mn mx : ℚ) (o : Obs), inRange mn mx o = true ↔ mn ≤ o.value ∧ o.value ≤ mx) ∧
    (∀ (l : List Obs) (f : String), value_ranges f = none →
       ((clean_data_file l f).map (fun o => o.date)).Nodup ∧
       ∀ o ∈ l, o.date ∈ (clean_data_file l f).map (fun o => o.date)) := by
  refine ⟨?_, inRange_iff, ?_⟩
  · intro l f mn mx h hnd
    simp only [clean_data_file, h]
    exact cleanLoop_eq_filter _ [] l hnd (by simp)
  · intro l f h
    simp only [clean_data_file, h]
    refine ⟨cleanLoop_nodup _ _ _, ?_⟩
    intro o ho
    exact cleanLoop_true_date_mem [] l o.date (List.mem_map.mpr ⟨o, ho, rfl⟩) (by simp)

/-- C7 witness: for "ism_manufacturing.json" (range [0, 100]) the
Observation with value 150 is dropped and the in-range one kept. -/
theorem clean_range_filtering_witness :
    value_ranges "ism_manufacturing.json" = some (0, 100) ∧
    clean_data_file [⟨⟨2024, 1, 1⟩, 150⟩, ⟨⟨2024, 2, 1⟩, 50⟩] "ism_manufacturing.json" =
      List.filter (inRange 0 100) [⟨⟨2024, 1, 1⟩, 150⟩, ⟨⟨2024, 2, 1⟩, 50⟩] :=
  ⟨by decide,
    clean_range_filtering.1 [⟨⟨2024, 1, 1⟩, 150⟩, ⟨⟨2024, 2, 1⟩, 50⟩]
      "ism_manufacturing.json" 0 100 (by decide) (by decide)⟩

/-- C4 counterexample: the claim says the first occurrence of a duplicated
date is always the retained one, but when the first occurrence is an
out-of-range outlier the code drops it without marking its date as seen and
keeps a later occurrence: for "bitcoin_price.json" (range [0, 150000]) the
input [{2024-01-01, -5}, {2024-01-01, 10}] cleans to [{2024-01-01, 10}],
which is not the first occurrence. -/
theorem first_wins_counterexample :
    clean_data_file [⟨⟨2024, 1, 1⟩, -5⟩, ⟨⟨2024, 1, 1⟩, 10⟩] "bitcoin_price.json" =
      [⟨⟨2024, 1, 1⟩, 10⟩] ∧
    (⟨⟨2024, 1, 1⟩, 10⟩ : Obs) ≠ ⟨⟨2024, 1, 1⟩, -5⟩ := by
  decide

/-- C4 amended: every Observation kept by `clean_data_file` is the first
input occurrence of its date among those that pass the filename's
keep-test (for unranged series: the first occurrence outright); each date
is kept at most once, so every later occurrence of an already-kept date is
dropped even if its value differs; and on the claim's concrete example
A = [{2024-01-01, 10}] before B = [{2024-01-01, 99}] the result is
[{2024-01-01, 10}]. -/
theorem first_surviving_occurrence_wins :
    (∀ (l : List Obs) (f : String) (o : Obs), o ∈ clean_data_file l f →
        l.find? (fun x => decide (x.date = o.date) && keepFor f x) = some o) ∧
    (∀ (l : List Obs) (f : String), ((clean_data_file l f).map (fun o => o.date)).Nodup) ∧
    clean_data_file ([⟨⟨2024, 1, 1⟩, 10⟩] ++ [⟨⟨2024, 1, 1⟩, 99⟩]) "bitcoin_price.json" =
      [⟨⟨2024, 1, 1⟩, 10⟩] := by
  refine ⟨?_, ?_, by decide⟩
  · intro l f o ho
    rw [clean_data_file_eq] at ho
    exact (cleanLoop_first_wins _ _ _ o ho).2
  · intro l f
    rw [clean_data_file_eq]
    exact cleanLoop_nodup _ _ _

/-- C4 witness: on the concrete duplicate pair, the kept Observation is the
first one with its date passing the keep-test. -/
theorem first_surviving_occurrence_wins_witness :
    List.find?
      (fun x => decide (x.date = (⟨⟨2024, 1, 1⟩, 10⟩ : Obs).date) &&
        keepFor "bitcoin_price.json" x)
      [⟨⟨2024, 1, 1⟩, 10⟩, ⟨⟨2024, 1, 1⟩, 99⟩] = some ⟨⟨2024, 1, 1⟩, 10⟩ :=
  first_surviving_occurrence_wins.1 [⟨⟨2024, 1, 1⟩, 10⟩, ⟨⟨2024, 1, 1⟩, 99⟩]
    "bitcoin_price.json" ⟨⟨2024, 1, 1⟩, 10⟩ (by decide)

/-- C1 counterexample: `clean_data_file` does not sort; on the unsorted
duplicate-free input [{2024-01-02, 5}, {2024-01-01, 6}] (filename without a
declared range) the output is the input unchanged, which is not strictly
ascending by date. -/
theorem clean_sorts_counterexample :
    clean_data_file [⟨⟨2024, 1, 2⟩, 5⟩, ⟨⟨2024, 1, 1⟩, 6⟩] "x.json" =
      [⟨⟨2024, 1, 2⟩, 5⟩, ⟨⟨2024, 1, 1⟩, 6⟩] ∧
    ¬ ((clean_data_file [⟨⟨2024, 1, 2⟩, 5⟩, ⟨⟨2024, 1, 1⟩, 6⟩] "x.json").Pairwise obsLt) := by
  decide

/-- C1 amended: `clean_data_file` performs no sort and keeps the input
order; whenever its input is already weakly ascending by date (as every
call site ensures by sorting before cleaning), its output is strictly
ascending by date with no repeated dates. -/
theorem clean_preserves_sorted :
    ∀ (l : List Obs) (f : String), l.Pairwise obsLe →
      (clean_data_file l f).Pairwise obsLt := by
  intro l f hle
  rw [clean_data_file_eq]
  exact pairwise_lt_of_le_nodup _
    (List.Pairwise.sublist (cleanLoop_sublist (keepFor f) [] l) hle)
    (cleanLoop_nodup _ _ _)

/-- C1 witness: a concrete weakly ascending input cleans to a strictly
ascending output. -/
theorem clean_preserves_sorted_witness :
    ([⟨⟨2024, 1, 1⟩, 5⟩, ⟨⟨2024, 1, 1⟩, 6⟩, ⟨⟨2024, 1, 2⟩, 7⟩] : List Obs).Pairwise obsLe ∧
    (clean_data_file [⟨⟨2024, 1, 1⟩, 5⟩, ⟨⟨2024, 1, 1⟩, 6⟩, ⟨⟨2024, 1, 2⟩, 7⟩] "x.json").Pairwise obsLt :=
  ⟨by decide,
    clean_preserves_sorted [⟨⟨2024, 1, 1⟩, 5⟩, ⟨⟨2024, 1, 1⟩, 6⟩, ⟨⟨2024, 1, 2⟩, 7⟩]
      "x.json" (by decide)⟩

/-- C2 counterexample: with merge read as plain concatenation (A before B)
and no sort, `clean` does not return the union sorted ascending: A =
[{2024-01-02, 5}] is clean, B = [{2024-01-01, 6}] shares no date with A,
yet clean(A ++ B) keeps the concatenation order, which differs from the
sorted union. -/
theorem merge_clean_counterexample :
    clean_data_file ([⟨⟨2024, 1, 2⟩, 5⟩] ++ [⟨⟨2024, 1, 1⟩, 6⟩]) "x.json" =
      [⟨⟨2024, 1, 2⟩, 5⟩, ⟨⟨2024, 1, 1⟩, 6⟩] ∧
    sortByDate ([⟨⟨2024, 1, 2⟩, 5⟩] ++ [⟨⟨2024, 1, 1⟩, 6⟩]) =
      [⟨⟨2024, 1, 1⟩, 6⟩, ⟨⟨2024, 1, 2⟩, 5⟩] ∧
    ([⟨⟨2024, 1, 2⟩, 5⟩, ⟨⟨2024, 1, 1⟩, 6⟩] : List Obs) ≠
      [⟨⟨2024, 1, 1⟩, 6⟩, ⟨⟨2024, 1, 2⟩, 5⟩] ∧
    (⟨2024, 1, 2⟩ : Date) ≠ ⟨2024, 1, 1⟩ := by
  decide

/-- C2 amended: the update flow concatenates and then SORTS before
cleaning (update_data.py lines 150-157); for A and B whose combined dates
are pairwise distinct (A clean, B internally duplicate-free, no date
shared) and whose values all lie in the declared range, cleaning the
sorted concatenation drops nothing and returns exactly A ∪ B sorted
strictly ascending by date. -/
theorem merge_then_clean_stability :
    ∀ (A B : List Obs) (f : String),
      ((A ++ B).map (fun o => o.date)).Nodup →
      (∀ o ∈ A ++ B, inDeclaredRange f o) →
      clean_data_file (sortByDate (A ++ B)) f = sortByDate (A ++ B) ∧
      (sortByDate (A ++ B)).Pairwise obsLt ∧
      List.Perm (sortByDate (A ++ B)) (A ++ B) := by
  intro A B f hnd hr
  have hperm := sortByDate_perm (A ++ B)
  have hnds : ((sortByDate (A ++ B)).map (fun o => o.date)).Nodup :=
    (hperm.map (fun o => o.date)).nodup_iff.mpr hnd
  refine ⟨?_, pairwise_lt_of_le_nodup _ (sortByDate_sorted _) hnds, hperm⟩
  rw [clean_data_file_eq]
  apply cleanLoop_id _ [] _ hnds (by simp)
  intro o ho
  have hin := hr o (hperm.mem_iff.mp ho)
  unfold keepFor
  cases hv : value_ranges f with
  | none => rfl
  | some p =>
    cases p with
    | mk mn mx =>
      simp only [inDeclaredRange, hv] at hin
      exact (inRange_iff mn mx o).mpr hin

/-- C2 witness: a concrete clean A and disjoint in-range B merge and clean
to the sorted union with nothing dropped. -/
theorem merge_then_clean_stability_witness :
    clean_data_file (sortByDate ([⟨⟨2024, 1, 2⟩, 10⟩] ++ [⟨⟨2024, 1, 1⟩, 20⟩])) "bitcoin_price.json" =
      sortByDate ([⟨⟨2024, 1, 2⟩, 10⟩] ++ [⟨⟨2024, 1, 1⟩, 20⟩]) ∧
    (sortByDate ([⟨⟨2024, 1, 2⟩, 10⟩] ++ [⟨⟨2024, 1, 1⟩, 20⟩])).Pairwise obsLt ∧
    List.Perm (sortByDate ([⟨⟨2024, 1, 2⟩, 10⟩] ++ [⟨⟨2024, 1, 1⟩, 20⟩]))
      ([⟨⟨2024, 1, 2⟩, 10⟩] ++ [⟨⟨2024, 1, 1⟩, 20⟩]) :=
  merge_then_clean_stability [⟨⟨2024, 1, 2⟩, 10⟩] [⟨⟨2024, 1, 1⟩, 20⟩]
    "bitcoin_price.json" (by decide) (by decide)

/-- Appending candidates continues the scan from the current state,
shifting the running index by the length of the first block. -/
theorem closestAux_append (t : ℤ) (l₁ l₂ : List Obs) (j : Nat) (st : Option Nat × Nat) :
    closestAux t (l₁ ++ l₂) j st = closestAux t l₂ (j + l₁.length) (closestAux t l₁ j st) := by
  induction l₁ generalizing j st with
  | nil => simp [closestAux]
  | cons a l ih =>
    have harith : j + 1 + l.length = j + (l.length + 1) := by omega
    by_cases h : dayDist t a < st.2
    · simp only [List.cons_append, closestAux, if_pos h, List.append_eq, List.length_cons]
      rw [ih, harith]
    · simp only [List.cons_append, closestAux, if_neg h, List.append_eq, List.length_cons]
      rw [ih, harith]

/-- One more candidate at the end updates the scan state exactly when its
distance is strictly smaller than the running minimum. -/
theorem closestScan_snoc (t : ℤ) (l : List Obs) (x : Obs) :
    closestScan t (l ++ [x]) =
      if dayDist t x < (closestScan t l).2 then (some l.length, dayDist t x)
      else closestScan t l := by
  unfold closestScan
  rw [closestAux_append]
  simp [closestAux]

/-- Full characterization of the nearest-anchor scan: a `none` result means
every candidate is at least 365 days away (and the running minimum is still
the initial 365); a `some j` result means `j` is the first index attaining
the minimal distance, that distance is the reported minimum, and it is
strictly below 365. -/
theorem closestScan_spec (t : ℤ) (l : List Obs) :
    (∀ m, closestScan t l = (none, m) → m = 365 ∧ ∀ o ∈ l, 365 ≤ dayDist t o) ∧
    (∀ j m, closestScan t l = (some j, m) →
      ∃ past, l[j]? = some past ∧ m = dayDist t past ∧ m < 365 ∧
        (∀ o ∈ l, m ≤ dayDist t o) ∧
        ∀ k p, k < j → l[k]? = some p → m < dayDist t p) := by
  induction l using List.reverseRecOn with
  | nil =>
    constructor
    · intro m h
      simp only [closestScan, closestAux, Prod.mk.injEq] at h
      exact ⟨h.2.symm, by simp⟩
    · intro j m h
      simp only [closestScan, closestAux, Prod.mk.injEq] at h
      exact absurd h.1 (by simp)
  | append_singleton l x ih =>
    rcases hres : closestScan t l with ⟨ci, m0⟩
    have hsnoc := closestScan_snoc t l x
    rw [hres] at hsnoc
    by_cases hx : dayDist t x < m0
    · rw [if_pos hx] at hsnoc
      constructor
      · intro m h
        rw [hsnoc] at h
        exact absurd (congrArg Prod.fst h) (by simp)
      · intro j m h
        rw [hsnoc] at h
        have h1 : l.length = j := by
          have := congrArg Prod.fst h
          simpa using this
        have h2 : dayDist t x = m := by
          have := congrArg Prod.snd h
          simpa using this
        have hm365 : m < 365 := by
          cases ci with
          | none =>
            have := (ih.1 m0 hres).1
            omega
          | some j0 =>
            obtain ⟨past, _, _, hlt, _, _⟩ := ih.2 j0 m0 hres
            omega
        refine ⟨x, ?_, h2.symm, hm365, ?_, ?_⟩
        · rw [← h1]
          exact List.getElem?_concat_length l x
        · intro o ho
          rcases List.mem_append.mp ho with hol | hox
          · cases ci with
            | none =>
              have := (ih.1 m0 hres).2 o hol
              omega
            | some j0 =>
              obtain ⟨past, _, _, _, hall, _⟩ := ih.2 j0 m0 hres
              have := hall o hol
              omega
          · have : o = x := by simpa using hox
            subst this
            omega
        · intro k p hk hkp
          rw [← h1] at hk
          rw [List.getElem?_append_left hk] at hkp
          have hpl : p ∈ l := List.getElem?_mem hkp
          cases ci with
          | none =>
            have := (ih.1 m0 hres).2 p hpl
            omega
          | some j0 =>
            obtain ⟨past, _, _, _, hall, _⟩ := ih.2 j0 m0 hres
            have := hall p hpl
            omega
    · rw [if_neg hx] at hsnoc
      cases ci with
      | none =>
        constructor
        · intro m h
          rw [hsnoc] at h
          have hm : m0 = m := by
            have := congrArg Prod.snd h
            simpa using this
          obtain ⟨h365, hall⟩ := ih.1 m0 hres
          subst hm
          refine ⟨h365, ?_⟩
          intro o ho
          rcases List.mem_append.mp ho with hol | hox
          · exact hall o hol
          · have : o = x := by simpa using hox
            subst this
            omega
        · intro j m h
          rw [hsnoc] at h
          exact absurd (congrArg Prod.fst h) (by simp)
      | some j0 =>
        constructor
        · intro m h
          rw [hsnoc] at h
          exact absurd (congrArg Prod.fst h) (by simp)
        · intro j m h
          rw [hsnoc] at h
          have h1 : j0 = j := by
            have := congrArg Prod.fst h
            simpa using this
          have h2 : m0 = m := by
            have := congrArg Prod.snd h
            simpa using this
          subst h1
          subst h2
          obtain ⟨past, hpast, hm, h365, hall, hfirst⟩ := ih.2 j0 m0 hres
          have hjlen : j0 < l.length := (List.getElem?_eq_some_iff.mp hpast).1
          refine ⟨past, ?_, hm, h365, ?_, ?_⟩
          · rw [List.getElem?_append_left hjlen]
            exact hpast
          · intro o ho
            rcases List.mem_append.mp ho with hol | hox
            · exact hall o hol
            · have : o = x := by simpa using hox
              subst this
              omega
          · intro k p hk hkp
            have hklen : k < l.length := Nat.lt_trans hk hjlen
            rw [List.getElem?_append_left hklen] at hkp
            exact hfirst k p hk hkp

/-- Membership in a prefix, phrased through positions of the full list. -/
theorem mem_take_iff (s : List Obs) (i : Nat) (o : Obs) :
    o ∈ s.take i ↔ ∃ k, k < i ∧ s[k]? = some o := by
  constructor
  · intro h
    obtain ⟨k, hsome⟩ := List.mem_iff_getElem?.mp h
    have hk : k < (s.take i).length := (List.getElem?_eq_some_iff.mp hsome).1
    have hki : k < i := by
      rw [List.length_take] at hk
      omega
    refine ⟨k, hki, ?_⟩
    rw [← List.getElem?_take_of_lt hki]
    exact hsome
  · rintro ⟨k, hki, hsome⟩
    refine List.getElem?_mem (n := k) ?_
    rw [List.getElem?_take_of_lt hki]
    exact hsome

/-- C5: characterization of emission. `yoyAt s i = some o` holds exactly
when some strictly earlier index `j` holds the first Observation of
minimal day-distance to the date one calendar year before `s[i]`, that
distance is at most 45 days, its value is strictly positive, and `o` is
the current date paired with the rounded percentage return against that
anchor; index 0 (no earlier Observation) never emits, and
`calculate_yoy_returns` is the sorted list's emissions in index order. -/
theorem yoy_emission_characterization :
    (∀ s : List Obs, yoyAt s 0 = none) ∧
    (∀ l : List Obs, calculate_yoy_returns l =
      (List.range (sortByDate l).length).filterMap (yoyAt (sortByDate l))) ∧
    (∀ (s : List Obs) (i : Nat) (cur : Obs), s[i]? = some cur → ∀ o : Obs,
      (yoyAt s i = some o ↔
        ∃ (j : Nat) (past : Obs), j < i ∧ s[j]? = some past ∧
          (∀ (k : Nat) (p : Obs), k < i → s[k]? = some p →
            dayDist (Date.toOrdinal (minusOneYear cur.date)) past ≤
              dayDist (Date.toOrdinal (minusOneYear cur.date)) p) ∧
          (∀ (k : Nat) (p : Obs), k < j → s[k]? = some p →
            dayDist (Date.toOrdinal (minusOneYear cur.date)) past <
              dayDist (Date.toOrdinal (minusOneYear cur.date)) p) ∧
          dayDist (Date.toOrdinal (minusOneYear cur.date)) past ≤ 45 ∧
          0 < past.value ∧
          o = ⟨cur.date, round2 ((cur.value / past.value - 1) * 100)⟩)) := by
  refine ⟨?_, fun l => rfl, ?_⟩
  · intro s
    cases h0 : s[0]? with
    | none => simp [yoyAt, h0]
    | some cur => simp [yoyAt, h0, closestScan, closestAux]
  · intro s i cur hcur o
    constructor
    · intro h
      simp only [yoyAt, hcur] at h
      rcases hscan : closestScan (Date.toOrdinal (minusOneYear cur.date)) (s.take i)
        with ⟨ci, md⟩
      rw [hscan] at h
      cases ci with
      | none => simp at h
      | some j =>
        dsimp only at h
        by_cases h45 : md ≤ 45
        · rw [if_pos h45] at h
          cases hj : s[j]? with
          | none =>
            rw [hj] at h
            simp at h
          | some past =>
            rw [hj] at h
            dsimp only at h
            by_cases hpos : 0 < past.value
            · rw [if_pos hpos] at h
              have ho : o = ⟨cur.date, round2 ((cur.value / past.value - 1) * 100)⟩ :=
                (Option.some.inj h).symm
              obtain ⟨past', hpast', hmd, h365, hall, hfirst⟩ :=
                (closestScan_spec (Date.toOrdinal (minusOneYear cur.date)) (s.take i)).2
                  j md hscan
              have hjlen : j < (s.take i).length :=
                (List.getElem?_eq_some_iff.mp hpast').1
              have hji : j < i := by
                rw [List.length_take] at hjlen
                omega
              have hsj : s[j]? = some past' := by
                rw [← List.getElem?_take_of_lt hji]
                exact hpast'
              have hpp : past' = past := by
                rw [hsj] at hj
                exact Option.some.inj hj
              subst hpp
              refine ⟨j, past', hji, hsj, ?_, ?_, by omega, hpos, ho⟩
              · intro k p hk hp
                have := hall p ((mem_take_iff s i p).mpr ⟨k, hk, hp⟩)
                omega
              · intro k p hk hp
                have hki : k < i := Nat.lt_trans hk hji
                have := hfirst k p hk (by rw [List.getElem?_take_of_lt hki]; exact hp)
                omega
            · rw [if_neg hpos] at h
              simp at h
        · rw [if_neg h45] at h
          simp at h
    · rintro ⟨j, past, hji, hj, hmin, hfirstmin, h45, hpos, ho⟩
      simp only [yoyAt, hcur]
      rcases hscan : closestScan (Date.toOrdinal (minusOneYear cur.date)) (s.take i)
        with ⟨ci, md⟩
      have hmem : past ∈ s.take i := (mem_take_iff s i past).mpr ⟨j, hji, hj⟩
      cases ci with
      | none =>
        exfalso
        have hallge :=
          ((closestScan_spec (Date.toOrdinal (minusOneYear cur.date)) (s.take i)).1
            md hscan).2
        have := hallge past hmem
        omega
      | some j0 =>
        obtain ⟨past0, hpast0, hmd0, h365, hall, hfirst⟩ :=
          (closestScan_spec (Date.toOrdinal (minusOneYear cur.date)) (s.take i)).2
            j0 md hscan
        have hj0len : j0 < (s.take i).length :=
          (List.getElem?_eq_some_iff.mp hpast0).1
        have hj0i : j0 < i := by
          rw [List.length_take] at hj0len
          omega
        have hsj0 : s[j0]? = some past0 := by
          rw [← List.getElem?_take_of_lt hj0i]
          exact hpast0
        have h1 : md ≤ dayDist (Date.toOrdinal (minusOneYear cur.date)) past :=
          hall past hmem
        have h2 : dayDist (Date.toOrdinal (minusOneYear cur.date)) past ≤
            dayDist (Date.toOrdinal (minusOneYear cur.date)) past0 :=
          hmin j0 past0 hj0i hsj0
        have hj0j : j0 = j := by
          rcases Nat.lt_trichotomy j0 j with hlt | heq | hgt
          · have := hfirstmin j0 past0 hlt hsj0
            omega
          · exact heq
          · have := hfirst j past hgt (by rw [List.getElem?_take_of_lt hji]; exact hj)
            omega
        subst hj0j
        have hpp : past0 = past := by
          rw [hsj0] at hj
          exact Option.some.inj hj
        subst hpp
        dsimp only
        rw [if_pos (by omega : md ≤ 45)]
        rw [hsj0]
        dsimp only
        rw [if_pos hpos]
        rw [ho]

unseal Rat.mul Rat.inv Rat.add Rat.sub in
/-- C5 witness: the specification's acceptance-window example — points at
2023-01-01 (value 100) and 2024-01-15 (value 120), 14 days from the exact
year mark — emits exactly a 20.0 percent YoY return. -/
theorem yoy_emission_characterization_witness :
    yoyAt [⟨⟨2023, 1, 1⟩, 100⟩, ⟨⟨2024, 1, 15⟩, 120⟩] 1 = some ⟨⟨2024, 1, 15⟩, 20⟩ := by
  apply (yoy_emission_characterization.2.2 [⟨⟨2023, 1, 1⟩, 100⟩, ⟨⟨2024, 1, 15⟩, 120⟩] 1
    ⟨⟨2024, 1, 15⟩, 120⟩ (by decide) ⟨⟨2024, 1, 15⟩, 20⟩).mpr
  refine ⟨0, ⟨⟨2023, 1, 1⟩, 100⟩, by decide, by decide, ?_, ?_, by decide, by decide, by decide⟩
  · intro k p hk hp
    have hk0 : k = 0 := by omega
    subst hk0
    simp only [List.getElem?_cons_zero, Option.some.injEq] at hp
    subst hp
    exact Nat.le_refl _
  · intro k p hk hp
    exact absurd hk (Nat.not_lt_zero k)

/-- C6: when the scan over the strict prefix before index `i` returns an
anchor index `j`, then `j` is strictly earlier than `i` (future data is
never consulted: `yoyAt` is unchanged by any change beyond position `i`),
`j` attains the reported minimal distance, every strictly earlier candidate
is strictly farther, every candidate at the minimal distance is at or after
`j`, and on a date-sorted series the chosen anchor's date is at most the
date of any tied candidate (the earlier date wins exact ties). -/
theorem yoy_anchor_earlier_tie_break :
    (∀ (s : List Obs) (i : Nat) (t : ℤ) (j m : Nat),
      closestScan t (s.take i) = (some j, m) →
      j < i ∧
      (∃ past, s[j]? = some past ∧ m = dayDist t past) ∧
      (∀ (k : Nat) (p : Obs), k < j → s[k]? = some p → m < dayDist t p) ∧
      (∀ (k : Nat) (p : Obs), k < i → s[k]? = some p → dayDist t p = m → j ≤ k) ∧
      (s.Pairwise obsLe → ∀ (k : Nat) (p : Obs), k < i → s[k]? = some p →
        dayDist t p = m → ∀ past, s[j]? = some past → Date.le past.date p.date)) ∧
    (∀ (s s2 : List Obs) (i : Nat), s.take (i + 1) = s2.take (i + 1) →
      yoyAt s i = yoyAt s2 i) := by
  constructor
  · intro s i t j m hscan
    obtain ⟨past, hpast, hmd, h365, hall, hfirst⟩ := (closestScan_spec t (s.take i)).2 j m hscan
    have hjlen : j < (s.take i).length := (List.getElem?_eq_some_iff.mp hpast).1
    have hji : j < i := by
      rw [List.length_take] at hjlen
      omega
    have hsj : s[j]? = some past := by
      rw [← List.getElem?_take_of_lt hji]
      exact hpast
    have hstrict : ∀ (k : Nat) (p : Obs), k < j → s[k]? = some p → m < dayDist t p := by
      intro k p hk hp
      have hki : k < i := Nat.lt_trans hk hji
      exact hfirst k p hk (by rw [List.getElem?_take_of_lt hki]; exact hp)
    have htie : ∀ (k : Nat) (p : Obs), k < i → s[k]? = some p → dayDist t p = m → j ≤ k := by
      intro k p hki hp heq
      by_contra hc
      have hk : k < j := by omega
      have := hstrict k p hk hp
      omega
    refine ⟨hji, ⟨past, hsj, hmd⟩, hstrict, htie, ?_⟩
    intro hsorted k p hki hp heq past2 hpast2
    have hpp : past2 = past := by
      rw [hsj] at hpast2
      exact (Option.some.inj hpast2).symm
    rw [hpp]
    have hjk : j ≤ k := htie k p hki hp heq
    rcases Nat.lt_or_ge j k with hlt | hge
    · have hjlen2 : j < s.length := (List.getElem?_eq_some_iff.mp hsj).1
      have hklen : k < s.length := (List.getElem?_eq_some_iff.mp hp).1
      have hrel := List.pairwise_iff_getElem.mp hsorted j k hjlen2 hklen hlt
      have hpj : s[j] = past := by
        have := List.getElem?_eq_getElem hjlen2
        rw [this] at hsj
        exact Option.some.inj hsj
      have hpk : s[k] = p := by
        have := List.getElem?_eq_getElem hklen
        rw [this] at hp
        exact Option.some.inj hp
      rw [hpj, hpk] at hrel
      exact hrel
    · have hkj : k = j := by omega
      subst hkj
      have hpp2 : p = past := by
        rw [hsj] at hp
        exact (Option.some.inj hp).symm
      subst hpp2
      exact Date.le_refl _
  · intro s s2 i htake
    have hcur : s[i]? = s2[i]? := by
      rw [← List.getElem?_take_of_lt (Nat.lt_succ_self i), htake,
        List.getElem?_take_of_lt (Nat.lt_succ_self i)]
    have htke : s.take i = s2.take i := by
      have h1 : s.take i = (s.take (i + 1)).take i := by
        rw [List.take_take]
        congr 1
        omega
      rw [h1, htake, List.take_take]
      congr 1
      omega
    cases hc : s[i]? with
    | none =>
      have hc2 : s2[i]? = none := by rw [← hcur]; exact hc
      simp [yoyAt, hc, hc2]
    | some cur =>
      have hc2 : s2[i]? = some cur := by rw [← hcur]; exact hc
      simp only [yoyAt, hc, hc2, htke]
      rcases hscan : closestScan (Date.toOrdinal (minusOneYear cur.date)) (s2.take i)
        with ⟨ci, md⟩
      cases ci with
      | none => rfl
      | some j =>
        dsimp only
        obtain ⟨past, hpast, _, _, _, _⟩ :=
          (closestScan_spec (Date.toOrdinal (minusOneYear cur.date)) (s2.take i)).2
            j md hscan
        have hji : j < i := by
          have := (List.getElem?_eq_some_iff.mp hpast).1
          rw [List.length_take] at this
          omega
        have hgj : s[j]? = s2[j]? := by
          rw [← List.getElem?_take_of_lt hji, htke, List.getElem?_take_of_lt hji]
        rw [hgj]

/-- C6 witness: on the two-point series the scan before index 1 picks the
strictly earlier index 0 at distance 14 days. -/
theorem yoy_anchor_earlier_tie_break_witness :
    0 < 1 ∧
    (∃ past, ([⟨⟨2023, 1, 1⟩, 100⟩, ⟨⟨2024, 1, 15⟩, 120⟩] : List Obs)[0]? = some past ∧
      14 = dayDist (Date.toOrdinal (minusOneYear ⟨2024, 1, 15⟩)) past) := by
  have h := yoy_anchor_earlier_tie_break.1 [⟨⟨2023, 1, 1⟩, 100⟩, ⟨⟨2024, 1, 15⟩, 120⟩] 1
    (Date.toOrdinal (minusOneYear ⟨2024, 1, 15⟩)) 0 14 (by decide)
  exact ⟨h.1, h.2.1⟩

/-- C8: an accepted anchor with value 0 or negative produces no YoY entry
for the corresponding index, so the percentage formula is only ever
evaluated against a strictly positive past value. -/
theorem yoy_division_guard :
    ∀ (s : List Obs) (i : Nat) (cur past : Obs) (j m : Nat),
      s[i]? = some cur →
      closestScan (Date.toOrdinal (minusOneYear cur.date)) (s.take i) = (some j, m) →
      s[j]? = some past → past.value ≤ 0 →
      yoyAt s i = none := by
  intro s i cur past j m hcur hscan hpast hval
  simp only [yoyAt, hcur]
  rw [hscan]
  dsimp only
  by_cases h45 : m ≤ 45
  · rw [if_pos h45, hpast]
    dsimp only
    rw [if_neg (not_lt.mpr hval)]
  · rw [if_neg h45]

/-- C8 witness: an anchor with value 0 at distance 14 days suppresses the
emission at index 1. -/
theorem yoy_division_guard_witness :
    yoyAt [⟨⟨2023, 1, 1⟩, 0⟩, ⟨⟨2024, 1, 15⟩, 120⟩] 1 = none :=
  yoy_division_guard [⟨⟨2023, 1, 1⟩, 0⟩, ⟨⟨2024, 1, 15⟩, 120⟩] 1
    ⟨⟨2024, 1, 15⟩, 120⟩ ⟨⟨2023, 1, 1⟩, 0⟩ 0 14 (by decide) (by decide) (by decide)
    (by decide)

/-- C10: `calculate_yoy_returns` sorts its input by date first, so on
inputs with pairwise-distinct dates it is insensitive to the input
order. -/
theorem yoy_input_order_insensitive :
    ∀ (l lp : List Obs), List.Perm l lp → (l.map (fun o => o.date)).Nodup →
      calculate_yoy_returns l = calculate_yoy_returns lp := by
  intro l lp hp hnd
  unfold calculate_yoy_returns
  rw [sortByDate_perm_invariant l lp hp hnd]

/-- C10 witness: swapping the two points of the example series leaves the
YoY output unchanged. -/
theorem yoy_input_order_insensitive_witness :
    calculate_yoy_returns [⟨⟨2024, 1, 15⟩, 120⟩, ⟨⟨2023, 1, 1⟩, 100⟩] =
      calculate_yoy_returns [⟨⟨2023, 1, 1⟩, 100⟩, ⟨⟨2024, 1, 15⟩, 120⟩] :=
  yoy_input_order_insensitive _ _ (List.Perm.swap _ _ _) (by decide)

end UpdateData
